import Mathlib

set_option maxHeartbeats 1000000

/-!
Shallow embedding of `pii_detector.js` (class `PIIDetector`).

A document is modelled as its list of characters (`Str`).  The six
JavaScript regular expressions of `this.patterns` are embedded as terms of a
small regex language `RE` (every repetition operator in those six patterns
ranges over a single-character class, which the `rep` constructor captures);
`matchR` is a continuation-passing backtracking matcher reproducing the JS
semantics: ordered alternation, greedy quantifiers with backtracking, and
`\b` word-boundary assertions that inspect the character before the match
position.  `scan` reproduces the `while ((match = pattern.exec(text)))` loop
of `PIIDetector.detect` (with `lastIndex` resuming at the previous match
end), and the remaining definitions mirror the source methods one by one.
-/

/-- Characters of a scanned document; a document is its list of characters. -/
abbrev Str := List Char

/-- ASCII digit, as the JS class `[0-9]` / `\d`. -/
def isDigitC (c : Char) : Bool := '0' ≤ c && c ≤ '9'

/-- ASCII uppercase letter, as the JS class `[A-Z]`. -/
def isUpperC (c : Char) : Bool := 'A' ≤ c && c ≤ 'Z'

/-- ASCII lowercase letter, as the JS class `[a-z]`. -/
def isLowerC (c : Char) : Bool := 'a' ≤ c && c ≤ 'z'

/-- ASCII letter, as the JS class `[A-Za-z]`. -/
def isAlphaC (c : Char) : Bool := isUpperC c || isLowerC c

/-- ASCII letter or digit, as the JS class `[A-Za-z0-9]`. -/
def isAlnumC (c : Char) : Bool := isAlphaC c || isDigitC c

/-- JS word character `\w` = `[A-Za-z0-9_]`, used by the `\b` assertion. -/
def isWordChar (c : Char) : Bool := isAlnumC c || c == '_'

/-- JS whitespace class `\s`: ASCII whitespace plus the Unicode space
separators recognised by ECMAScript. -/
def isSpaceJS (c : Char) : Bool :=
  c == ' ' || c == '\t' || c == '\n' || c == '\r' || c == '\x0b' || c == '\x0c' ||
  c.toNat == 0xA0 || c.toNat == 0x1680 ||
  (0x2000 ≤ c.toNat && c.toNat ≤ 0x200A) ||
  c.toNat == 0x2028 || c.toNat == 0x2029 || c.toNat == 0x202F ||
  c.toNat == 0x205F || c.toNat == 0x3000 || c.toNat == 0xFEFF

/-- Regex abstract syntax covering the six catalog patterns.  Repetition
(`rep p lo max?`) ranges over a single-character class `p`, matching at
least `lo` and at most `max?` (no bound when `none`) characters, greedily.
`wb` is the `\b` word-boundary assertion. -/
inductive RE where
  | eps : RE
  | cls : (Char → Bool) → RE
  | seq : RE → RE → RE
  | alt : RE → RE → RE
  | opt : RE → RE
  | rep : (Char → Bool) → Nat → Option Nat → RE
  | wb : RE

/-- Single literal character. -/
def chr (c : Char) : RE := RE.cls (fun x => x == c)

/-- Literal character sequence. -/
def lit (s : Str) : RE := s.foldr (fun c r => RE.seq (chr c) r) RE.eps

/-- Sequencing of a list of regexes. -/
def seqs (l : List RE) : RE := l.foldr RE.seq RE.eps

/-- Never-matching regex, used as the base of n-ary alternation. -/
def reFail : RE := RE.cls (fun _ => false)

/-- Ordered n-ary alternation (JS `|` associates with left preference). -/
def alts (l : List RE) : RE := l.foldr RE.alt reFail

/-- Greedy `+` over a character class. -/
def rPlus (p : Char → Bool) : RE := RE.rep p 1 none

/-- Greedy `*` over a character class. -/
def rStar (p : Char → Bool) : RE := RE.rep p 0 none

/-- Length of the longest prefix of `l` whose characters satisfy `p`. -/
def prefRun (p : Char → Bool) : Str → Nat
  | [] => 0
  | c :: cs => if p c then prefRun p cs + 1 else 0

/-- Last character consumed after taking `j` characters from `rest`
(`prev` when `j = 0`); tracks the left-context needed by `\b`. -/
def lastConsumed (prev : Option Char) (rest : Str) (j : Nat) : Option Char :=
  if j = 0 then prev else rest[j - 1]?

/-- Try `f` at `lo + n`, `lo + n - 1`, …, `lo`, returning the first success:
the backtracking order of a greedy counted repetition. -/
def tryDownAux (f : Nat → Option Nat) (lo : Nat) : Nat → Option Nat
  | 0 => f lo
  | n + 1 =>
    match f (lo + n + 1) with
    | some v => some v
    | none => tryDownAux f lo n

/-- Upper bound on the repetition count: the explicit `max` when present,
otherwise the whole remaining input. -/
def repCap (max? : Option Nat) (len : Nat) : Nat :=
  match max? with
  | none => len
  | some m => m

/-- Backtracking matcher.  `matchR re prev rest k` attempts to match `re` at
the start of `rest` (with `prev` the character immediately before `rest` in
the document), trying continuations in the preference order of a JS
backtracking engine, and returns the first success of the continuation `k`. -/
def matchR : RE → Option Char → Str → (Option Char → Str → Option Nat) → Option Nat
  | RE.eps, prev, rest, k => k prev rest
  | RE.cls p, _, rest, k =>
    match rest with
    | [] => none
    | c :: cs => if p c then k (some c) cs else none
  | RE.seq a b, prev, rest, k =>
    matchR a prev rest (fun p2 r2 => matchR b p2 r2 k)
  | RE.alt a b, prev, rest, k =>
    match matchR a prev rest k with
    | some v => some v
    | none => matchR b prev rest k
  | RE.opt a, prev, rest, k =>
    match matchR a prev rest k with
    | some v => some v
    | none => k prev rest
  | RE.rep p lo max?, prev, rest, k =>
    let hi := Nat.min (prefRun p rest) (repCap max? rest.length)
    if hi < lo then none
    else tryDownAux (fun j => k (lastConsumed prev rest j) (rest.drop j)) lo (hi - lo)
  | RE.wb, prev, rest, k =>
    let before := match prev with | none => false | some c => isWordChar c
    let after := match rest with | [] => false | c :: _ => isWordChar c
    if before != after then k prev rest else none

/-- Lower bound on the number of characters any successful match of `re`
consumes. -/
def minConsume : RE → Nat
  | RE.eps => 0
  | RE.cls _ => 1
  | RE.seq a b => minConsume a + minConsume b
  | RE.alt a b => Nat.min (minConsume a) (minConsume b)
  | RE.opt _ => 0
  | RE.rep _ lo _ => lo
  | RE.wb => 0

/-- Attempt a match anchored at position `i` of `doc`; on success returns
the exclusive end position, as `RegExp.exec` reports `index + [0].length`. -/
def tryAt (re : RE) (doc : Str) (i : Nat) : Option Nat :=
  let rest := doc.drop i
  let prev := if i = 0 then none else doc[i - 1]?
  (matchR re prev rest (fun _ r => some r.length)).map
    (fun rem => i + (rest.length - rem))

/-- Search for the leftmost match at or after position `i` (fuelled; the
fuel covers every position up to the end of the document). -/
def searchAux (re : RE) (doc : Str) : Nat → Nat → Option (Nat × Nat)
  | 0, _ => none
  | fuel + 1, i =>
    match tryAt re doc i with
    | some e => some (i, e)
    | none => if i < doc.length then searchAux re doc fuel (i + 1) else none

/-- Leftmost match of `re` in `doc` at or after position `i`:
the behaviour of `exec` on a `/g` regex whose `lastIndex` is `i`. -/
def searchFrom (re : RE) (doc : Str) (i : Nat) : Option (Nat × Nat) :=
  searchAux re doc (doc.length + 1 - i) i

/-- A match record, as pushed by `PIIDetector.detect`:
`{ value: match[0], start: match.index, end: match.index + match[0].length }`. -/
structure PIIMatch where
  value : Str
  start : Nat
  «end» : Nat
  deriving DecidableEq, Repr

/-- The substring of `doc` at positions `[s, e)`. -/
def extract (doc : Str) (s e : Nat) : Str := (doc.drop s).take (e - s)

/-- The `while ((match = pattern.exec(text)) !== null)` loop of
`PIIDetector.detect`: collect successive matches, resuming each search at
the previous match's end (`lastIndex`).  The fuel is exhausted only if a
pattern could match the empty string, which none of the catalog patterns
can. -/
def scanAux (re : RE) (doc : Str) : Nat → Nat → List PIIMatch
  | 0, _ => []
  | fuel + 1, pos =>
    match searchFrom re doc pos with
    | none => []
    | some (s, e) => ⟨extract doc s e, s, e⟩ :: scanAux re doc fuel e

/-- All matches of `re` in `doc`, in ascending order of start position. -/
def scan (re : RE) (doc : Str) : List PIIMatch :=
  scanAux re doc (doc.length + 1) 0

/-- Class `[A-Za-z0-9._%+\-]` of the email local part. -/
def emailLocalC (c : Char) : Bool :=
  isAlnumC c || c == '.' || c == '_' || c == '%' || c == '+' || c == '-'

/-- Class `[A-Za-z0-9.\-]` of the email domain part. -/
def emailDomC (c : Char) : Bool := isAlnumC c || c == '.' || c == '-'

/-- `/\b[A-Za-z0-9][A-Za-z0-9._%+\-]*@[A-Za-z0-9][A-Za-z0-9.\-]*\.[A-Za-z]{2,}\b/` -/
def emailRE : RE :=
  seqs [RE.wb, RE.cls isAlnumC, rStar emailLocalC, chr '@', RE.cls isAlnumC,
    rStar emailDomC, chr '.', RE.rep isAlphaC 2 none, RE.wb]

/-- Class `[-.\s]` separating phone number groups. -/
def phoneSepC (c : Char) : Bool := c == '-' || c == '.' || isSpaceJS c

/-- `/\b(?:\+?1[-.\s]?)?\(?([0-9]{3})\)?[-.\s]?([0-9]{3})[-.\s]?([0-9]{4})\b/` -/
def phoneRE : RE :=
  seqs [RE.wb,
    RE.opt (seqs [RE.opt (chr '+'), chr '1', RE.opt (RE.cls phoneSepC)]),
    RE.opt (chr '('), RE.rep isDigitC 3 (some 3), RE.opt (chr ')'),
    RE.opt (RE.cls phoneSepC), RE.rep isDigitC 3 (some 3),
    RE.opt (RE.cls phoneSepC), RE.rep isDigitC 4 (some 4), RE.wb]

/-- Capitalized word `[A-Z][a-z]+(?:[-'][A-Z][a-z]+)?` of the name pattern. -/
def capWord : RE :=
  seqs [RE.cls isUpperC, rPlus isLowerC,
    RE.opt (seqs [RE.cls (fun c => c == '-' || c == '\''), RE.cls isUpperC,
      rPlus isLowerC])]

/-- Honorific alternation `Dr|Mr|Ms|Mrs|Prof`, in source order. -/
def honorific : RE :=
  alts [lit ("Dr".toList), lit ("Mr".toList), lit ("Ms".toList),
    lit ("Mrs".toList), lit ("Prof".toList)]

/-- `/\b(?:(?:Dr|Mr|Ms|Mrs|Prof)\.?\s+)?([A-Z][a-z]+(?:[-'][A-Z][a-z]+)?)\s+(?:([A-Z]\.?\s+))?([A-Z][a-z]+(?:[-'][A-Z][a-z]+)?)\b/` -/
def nameRE : RE :=
  seqs [RE.wb,
    RE.opt (seqs [honorific, RE.opt (chr '.'), rPlus isSpaceJS]),
    capWord, rPlus isSpaceJS,
    RE.opt (seqs [RE.cls isUpperC, RE.opt (chr '.'), rPlus isSpaceJS]),
    capWord, RE.wb]

/-- Class `[A-Za-z0-9\s]` of the middle of the address pattern. -/
def addrMidC (c : Char) : Bool := isAlnumC c || isSpaceJS c

/-- Street-type tokens of the address pattern, in source order. -/
def streetTypes : List String :=
  ["Street", "St", "Avenue", "Ave", "Road", "Rd", "Boulevard", "Blvd",
   "Lane", "Ln", "Drive", "Dr", "Court", "Ct", "Circle", "Cir"]

/-- `/\b\d{1,5}\s+[A-Za-z0-9\s]+(?:Street|St|Avenue|Ave|Road|Rd|Boulevard|Blvd|Lane|Ln|Drive|Dr|Court|Ct|Circle|Cir)\b/` -/
def addressRE : RE :=
  seqs [RE.wb, RE.rep isDigitC 1 (some 5), rPlus isSpaceJS, rPlus addrMidC,
    alts (streetTypes.map (fun s => lit s.toList)), RE.wb]

/-- `/\b\d{3}-\d{2}-\d{4}\b/` -/
def ssnRE : RE :=
  seqs [RE.wb, RE.rep isDigitC 3 (some 3), chr '-', RE.rep isDigitC 2 (some 2),
    chr '-', RE.rep isDigitC 4 (some 4), RE.wb]

/-- Class `[-\s]` separating credit card groups. -/
def ccSepC (c : Char) : Bool := c == '-' || isSpaceJS c

/-- `/\b\d{4}[-\s]?\d{4}[-\s]?\d{4}[-\s]?\d{4}\b/` -/
def creditCardRE : RE :=
  seqs [RE.wb, RE.rep isDigitC 4 (some 4), RE.opt (RE.cls ccSepC),
    RE.rep isDigitC 4 (some 4), RE.opt (RE.cls ccSepC),
    RE.rep isDigitC 4 (some 4), RE.opt (RE.cls ccSepC),
    RE.rep isDigitC 4 (some 4), RE.wb]

/-- `this.patterns`, in insertion (= `for...in` enumeration) order. -/
def patternList : List (String × RE) :=
  [("email", emailRE), ("phone", phoneRE), ("name", nameRE),
   ("address", addressRE), ("ssn", ssnRE), ("credit_card", creditCardRE)]

/-- The category keys of the catalog, in enumeration order. -/
def catalogKeys : List String := patternList.map Prod.fst

/-- `this.piiLabels`. -/
def piiLabels : List (String × String) :=
  [("email", "Email Addresses"), ("phone", "Phone Numbers"),
   ("name", "Names"), ("address", "Street Addresses"),
   ("ssn", "Social Security Numbers"), ("credit_card", "Credit Card Numbers")]

/-- Own property names of `Object.prototype`: these are inherited by the
`this.patterns` object literal, so `this.patterns[name]` is truthy for them
even though they are not catalog categories. -/
def objectProtoKeys : List String :=
  ["constructor", "hasOwnProperty", "isPrototypeOf", "propertyIsEnumerable",
   "toLocaleString", "toString", "valueOf", "__defineGetter__",
   "__defineSetter__", "__lookupGetter__", "__lookupSetter__", "__proto__"]

/-- What the property read `this.patterns[piiType]` yields: a catalog
regex, a truthy non-RegExp value inherited from `Object.prototype`, or
`undefined`. -/
inductive PatternSlot where
  | regexOf : RE → PatternSlot
  | inheritedJunk : PatternSlot

/-- Property lookup on the `this.patterns` object, prototype chain
included. -/
def patternsGet (t : String) : Option PatternSlot :=
  match List.lookup t patternList with
  | some r => some (PatternSlot.regexOf r)
  | none =>
    if objectProtoKeys.contains t then some PatternSlot.inheritedJunk else none

/-- Maximal digit runs of `s`, in order: the value of `s.match(/\d+/g)`
when non-null. -/
def digitRuns (s : Str) : List Str :=
  (s.foldr
    (fun c acc =>
      if isDigitC c then
        match acc with
        | (p :: ps, true) => ((c :: p) :: ps, true)
        | (pieces, _) => ([c] :: pieces, true)
      else (acc.1, false))
    ([], false)).1

/-- `s.match(/\d+/g)`: `none` models JS `null` (no digit run at all). -/
def jsMatchDigits (s : Str) : Option (List Str) :=
  if (digitRuns s).isEmpty then none else some (digitRuns s)

/-- Numeric value of a digit string, as `parseInt` computes it on an
all-digit input. -/
def digitsToNat (ds : Str) : Nat :=
  ds.foldl (fun a c => a * 10 + (c.toNat - '0'.toNat)) 0

/-- `value.split(/\s+/)`: split on maximal whitespace runs, keeping the
(possibly empty) fragments before the first and after the last run. -/
def splitWs (s : Str) : List Str :=
  (s.foldr
    (fun c acc =>
      if isSpaceJS c then
        match acc with
        | (pieces, true) => (pieces, true)
        | (pieces, false) => ([] :: pieces, true)
      else
        match acc with
        | (p :: ps, _) => ((c :: p) :: ps, false)
        | ([], _) => ([[c]], false))
    ([[]], false)).1

/-- `PIIDetector.filterPhoneFalsePositives`: drop a match when its digit
runs look like a `MM/DD/....` date. -/
def filterPhoneFalsePositives (ms : List PIIMatch) : List PIIMatch :=
  ms.filter fun m =>
    match jsMatchDigits m.value with
    | none => true
    | some digits =>
      if digits.length = 3 then
        let first := digitsToNat (digits.getD 0 [])
        let second := digitsToNat (digits.getD 1 [])
        if first ≤ 12 ∧ second ≤ 31 then false else true
      else true

/-- The stoplist `commonWords` of `filterNameFalsePositives`. -/
def commonWords : List Str :=
  (["The", "This", "That", "Will", "May", "June", "July",
    "August", "March", "April", "January", "February"] : List String).map
    String.toList

/-- `PIIDetector.filterNameFalsePositives`: drop a match when any
whitespace-separated word of its text is in the stoplist. -/
def filterNameFalsePositives (ms : List PIIMatch) : List PIIMatch :=
  ms.filter fun m =>
    let words := splitWs m.value
    !(words.any (fun w => commonWords.contains w))

/-- `PIIDetector.detect`.  The `Except` models the JS control flow: for an
`Object.prototype`-inherited name the truthiness guard passes and
`pattern.exec` is not a function, so the call throws a `TypeError`
(modelled as `Except.error`); otherwise the match list is returned. -/
def detect (text : Str) (piiType : String) : Except Unit (List PIIMatch) :=
  match patternsGet piiType with
  | none => Except.ok []
  | some PatternSlot.inheritedJunk => Except.error ()
  | some (PatternSlot.regexOf re) =>
    let found := scan re text
    if piiType == "phone" then Except.ok (filterPhoneFalsePositives found)
    else if piiType == "name" then Except.ok (filterNameFalsePositives found)
    else Except.ok found

/-- Value of `detect` where it is defined (it never throws on catalog
keys, which are the only keys the other methods pass to it). -/
def detectD (text : Str) (piiType : String) : List PIIMatch :=
  match detect text piiType with
  | Except.ok l => l
  | Except.error _ => []

/-- `PIIDetector.detectAll`: one entry per catalog category, in
enumeration order. -/
def detectAll (text : Str) : List (String × List PIIMatch) :=
  patternList.map (fun p => (p.1, detectD text p.1))

/-- `PIIDetector.getSummary`: per-category count of retained matches. -/
def getSummary (text : Str) : List (String × Nat) :=
  (detectAll text).map (fun p => (p.1, p.2.length))

/-- Insertion-order deduplication with a `seen` accumulator: the semantics
of iterating a JS `Set`. -/
def firstDedupAux : List Str → List Str → List Str
  | [], _ => []
  | x :: xs, seen =>
    if seen.contains x then firstDedupAux xs seen
    else x :: firstDedupAux xs (x :: seen)

/-- `[...new Set(arr)]`: distinct elements in order of first occurrence. -/
def firstDedup (l : List Str) : List Str := firstDedupAux l []

/-- `PIIDetector.getUniqueValues`. -/
def getUniqueValues (text : Str) : List (String × List Str) :=
  (detectAll text).map (fun p => (p.1, firstDedup (p.2.map PIIMatch.value)))

/-- Cross-category match list of `anonymize`, built in catalog order with
each match tagged by its category (`allMatches`). -/
def collectMatches (results : List (String × List PIIMatch)) :
    List (PIIMatch × String) :=
  results.foldr (fun p acc => p.2.map (fun m => (m, p.1)) ++ acc) []

/-- Insert into a list sorted by descending `start`, after any element of
equal `start` (the placement a stable sort gives). -/
def insertDesc (x : PIIMatch × String) :
    List (PIIMatch × String) → List (PIIMatch × String)
  | [] => [x]
  | y :: ys => if y.1.start < x.1.start then x :: y :: ys else y :: insertDesc x ys

/-- `allMatches.sort((a, b) => b.start - a.start)`: a stable sort by
descending start offset. -/
def sortDesc (l : List (PIIMatch × String)) : List (PIIMatch × String) :=
  l.foldl (fun acc x => insertDesc x acc) []

/-- Label lookup `this.piiLabels[t]` (always defined on catalog keys, the
only keys `anonymize` tags matches with). -/
def labelGet (t : String) : String := (List.lookup t piiLabels).getD ""

/-- Placeholder `"[" + label.toUpperCase() + "]"`. -/
def placeholderFor (t : String) : Str :=
  ('[' :: (labelGet t).toList.map Char.toUpper) ++ [']']

/-- One rewriting step of `anonymize`:
`acc.substring(0, start) + placeholder + acc.substring(end)`. -/
def replaceSpan (doc : Str) (s e : Nat) (repl : Str) : Str :=
  doc.take s ++ repl ++ doc.drop e

/-- `PIIDetector.anonymize`. -/
def anonymize (text : Str) : Str :=
  let results := detectAll text
  let sorted := sortDesc (collectMatches results)
  sorted.foldl
    (fun acc mt => replaceSpan acc mt.1.start mt.1.«end» (placeholderFor mt.2))
    text

/-- The six placeholder strings `anonymize` can emit. -/
def placeholderStrings : List Str := catalogKeys.map placeholderFor

/-- Index of the first occurrence of `v` in a list of strings (length of
the list when absent); used to state first-occurrence ordering. -/
def firstIdx (v : Str) : List Str → Nat
  | [] => 0
  | x :: xs => if x = v then 0 else firstIdx v xs + 1

/-! ### Lemmas about the matcher -/

theorem prefRun_le_length (p : Char → Bool) : ∀ l : Str, prefRun p l ≤ l.length
  | [] => Nat.le_refl _
  | c :: cs => by
    simp only [prefRun, List.length_cons]
    split
    · exact Nat.succ_le_succ (prefRun_le_length p cs)
    · exact Nat.zero_le _

theorem tryDownAux_some {f : Nat → Option Nat} {lo : Nat} :
    ∀ {n v : Nat}, tryDownAux f lo n = some v →
      ∃ m, lo ≤ m ∧ m ≤ lo + n ∧ f m = some v := by
  intro n
  induction n with
  | zero =>
    intro v h
    exact ⟨lo, Nat.le_refl _, Nat.le_refl _, h⟩
  | succ n ih =>
    intro v h
    simp only [tryDownAux] at h
    split at h
    · next v' heq =>
      cases h
      exact ⟨lo + n + 1, by omega, by omega, heq⟩
    · obtain ⟨m, h1, h2, h3⟩ := ih h
      exact ⟨m, h1, by omega, h3⟩

theorem matchR_some :
    ∀ (re : RE) (prev : Option Char) (rest : Str)
      (k : Option Char → Str → Option Nat) (v : Nat),
      matchR re prev rest k = some v →
      ∃ j pr, minConsume re ≤ j ∧ j ≤ rest.length ∧ k pr (rest.drop j) = some v := by
  intro re
  induction re with
  | eps =>
    intro prev rest k v h
    simp only [matchR] at h
    exact ⟨0, prev, Nat.le_refl _, Nat.zero_le _, h⟩
  | cls p =>
    intro prev rest k v h
    cases rest with
    | nil =>
      simp only [matchR] at h
      exact Option.noConfusion h
    | cons c cs =>
      simp only [matchR] at h
      split at h
      · exact ⟨1, some c, Nat.le_refl _, by simp, h⟩
      · exact Option.noConfusion h
  | seq a b iha ihb =>
    intro prev rest k v h
    simp only [matchR] at h
    obtain ⟨j1, pr1, hm1, hl1, hk1⟩ := iha prev rest _ v h
    obtain ⟨j2, pr2, hm2, hl2, hk2⟩ := ihb pr1 (rest.drop j1) k v hk1
    refine ⟨j1 + j2, pr2, ?_, ?_, ?_⟩
    · exact Nat.add_le_add hm1 hm2
    · have := List.length_drop j1 rest
      omega
    · have hdd : List.drop j2 (List.drop j1 rest) = List.drop (j1 + j2) rest := by
        rw [List.drop_drop, Nat.add_comm]
      rw [hdd] at hk2
      exact hk2
  | alt a b iha ihb =>
    intro prev rest k v h
    simp only [matchR] at h
    split at h
    · rename_i v2 heq
      cases h
      obtain ⟨j, pr, hm, hl, hk⟩ := iha prev rest k _ heq
      exact ⟨j, pr, Nat.le_trans (Nat.min_le_left _ _) hm, hl, hk⟩
    · obtain ⟨j, pr, hm, hl, hk⟩ := ihb prev rest k v h
      exact ⟨j, pr, Nat.le_trans (Nat.min_le_right _ _) hm, hl, hk⟩
  | opt a iha =>
    intro prev rest k v h
    simp only [matchR] at h
    split at h
    · rename_i v2 heq
      cases h
      obtain ⟨j, pr, _, hl, hk⟩ := iha prev rest k _ heq
      exact ⟨j, pr, Nat.zero_le _, hl, hk⟩
    · exact ⟨0, prev, Nat.le_refl _, Nat.zero_le _, h⟩
  | rep p lo max? =>
    intro prev rest k v h
    simp only [matchR] at h
    split at h
    · exact Option.noConfusion h
    · rename_i hge
      obtain ⟨m, h1, h2, h3⟩ := tryDownAux_some h
      refine ⟨m, lastConsumed prev rest m, h1, ?_, h3⟩
      have hp := prefRun_le_length p rest
      have hmin : Nat.min (prefRun p rest) (repCap max? rest.length) ≤
          prefRun p rest := Nat.min_le_left _ _
      omega
  | wb =>
    intro prev rest k v h
    simp only [matchR] at h
    split at h
    · exact ⟨0, prev, Nat.le_refl _, Nat.zero_le _, h⟩
    · exact Option.noConfusion h

theorem tryAt_some {re : RE} {doc : Str} {i e : Nat}
    (h : tryAt re doc i = some e) :
    ∃ j, minConsume re ≤ j ∧ j ≤ (doc.drop i).length ∧ e = i + j := by
  simp only [tryAt, Option.map_eq_some'] at h
  obtain ⟨rem, hm, he⟩ := h
  obtain ⟨j, pr, hj1, hj2, hk⟩ := matchR_some re _ _ _ rem hm
  have hrem : rem = (doc.drop i).length - j := by
    have := List.length_drop j (doc.drop i)
    cases hk
    omega
  refine ⟨j, hj1, hj2, ?_⟩
  subst hrem he
  omega

theorem tryAt_bounds {re : RE} (hmc : 1 ≤ minConsume re) {doc : Str}
    {i e : Nat} (h : tryAt re doc i = some e) : i < e ∧ e ≤ doc.length := by
  obtain ⟨j, hj1, hj2, he⟩ := tryAt_some h
  have := List.length_drop i doc
  omega

theorem searchAux_some {re : RE} (hmc : 1 ≤ minConsume re) {doc : Str} :
    ∀ {fuel i s e : Nat}, searchAux re doc fuel i = some (s, e) →
      i ≤ s ∧ s < e ∧ e ≤ doc.length := by
  intro fuel
  induction fuel with
  | zero => intro i s e h; exact Option.noConfusion h
  | succ fuel ih =>
    intro i s e h
    simp only [searchAux] at h
    split at h
    · rename_i e2 heq
      cases h
      obtain ⟨h1, h2⟩ := tryAt_bounds hmc heq
      exact ⟨Nat.le_refl _, h1, h2⟩
    · split at h
      · obtain ⟨h1, h2, h3⟩ := ih h
        exact ⟨by omega, h2, h3⟩
      · exact Option.noConfusion h

theorem searchFrom_some {re : RE} (hmc : 1 ≤ minConsume re) {doc : Str}
    {pos s e : Nat} (h : searchFrom re doc pos = some (s, e)) :
    pos ≤ s ∧ s < e ∧ e ≤ doc.length :=
  searchAux_some hmc h

theorem scanAux_mem {re : RE} (hmc : 1 ≤ minConsume re) {doc : Str} :
    ∀ {fuel pos : Nat} {m : PIIMatch}, m ∈ scanAux re doc fuel pos →
      pos ≤ m.start ∧ m.start < m.«end» ∧ m.«end» ≤ doc.length ∧
        m.value = extract doc m.start m.«end» := by
  intro fuel
  induction fuel with
  | zero => intro pos m h; exact absurd h (List.not_mem_nil _)
  | succ fuel ih =>
    intro pos m h
    simp only [scanAux] at h
    split at h
    · exact absurd h (List.not_mem_nil _)
    · rename_i s e heq
      rcases List.mem_cons.mp h with hm | hm
      · obtain ⟨h1, h2, h3⟩ := searchFrom_some hmc heq
        subst hm
        exact ⟨h1, h2, h3, rfl⟩
      · obtain ⟨h1, h2, h3, h4⟩ := ih hm
        obtain ⟨g1, g2, g3⟩ := searchFrom_some hmc heq
        exact ⟨by omega, h2, h3, h4⟩

theorem scanAux_pairwise {re : RE} (hmc : 1 ≤ minConsume re) {doc : Str} :
    ∀ {fuel pos : Nat},
      (scanAux re doc fuel pos).Pairwise (fun a b => a.«end» ≤ b.start) := by
  intro fuel
  induction fuel with
  | zero => intro pos; exact List.Pairwise.nil
  | succ fuel ih =>
    intro pos
    simp only [scanAux]
    split
    · exact List.Pairwise.nil
    · rename_i s e heq
      refine List.Pairwise.cons ?_ ih
      intro b hb
      exact (scanAux_mem hmc hb).1

theorem scanAux_length {re : RE} (hmc : 1 ≤ minConsume re) {doc : Str} :
    ∀ {fuel pos : Nat}, (scanAux re doc fuel pos).length ≤ doc.length - pos := by
  intro fuel
  induction fuel with
  | zero => intro pos; simp [scanAux]
  | succ fuel ih =>
    intro pos
    simp only [scanAux]
    split
    · simp
    · rename_i s e heq
      obtain ⟨h1, h2, h3⟩ := searchFrom_some hmc heq
      have := @ih e
      simp only [List.length_cons]
      omega

theorem scanAux_fuel {re : RE} (hmc : 1 ≤ minConsume re) {doc : Str} :
    ∀ {fuel1 fuel2 pos : Nat}, doc.length + 1 - pos ≤ fuel1 →
      doc.length + 1 - pos ≤ fuel2 →
      scanAux re doc fuel1 pos = scanAux re doc fuel2 pos := by
  intro fuel1
  induction fuel1 with
  | zero =>
    intro fuel2 pos h1 h2
    have hpos : doc.length < pos := by omega
    cases fuel2 with
    | zero => rfl
    | succ fuel2 =>
      have hnone : searchFrom re doc pos = none := by
        have : doc.length + 1 - pos = 0 := by omega
        simp [searchFrom, this, searchAux]
      simp [scanAux, hnone]
  | succ fuel1 ih =>
    intro fuel2 pos h1 h2
    cases fuel2 with
    | zero =>
      have hnone : searchFrom re doc pos = none := by
        have : doc.length + 1 - pos = 0 := by omega
        simp [searchFrom, this, searchAux]
      simp [scanAux, hnone]
    | succ fuel2 =>
      simp only [scanAux]
      split
      · rfl
      · rename_i s e heq
        obtain ⟨g1, g2, g3⟩ := searchFrom_some hmc heq
        have := @ih fuel2 e (by omega) (by omega)
        rw [this]

/-! ### Lemmas about the catalog and `detect` -/

theorem lookup_pattern_minConsume {t : String} {r : RE}
    (h : List.lookup t patternList = some r) : 1 ≤ minConsume r := by
  simp only [patternList, List.lookup] at h
  repeat' split at h
  all_goals first
    | (cases h; decide)
    | exact Option.noConfusion h

theorem detectD_cases (text : Str) (t : String) :
    detectD text t = [] ∨
      ∃ re, List.lookup t patternList = some re ∧
        List.Sublist (detectD text t) (scan re text) := by
  cases hl : List.lookup t patternList with
  | none =>
    have hpg : patternsGet t =
        (if objectProtoKeys.contains t then some PatternSlot.inheritedJunk
         else none) := by
      unfold patternsGet
      rw [hl]
    left
    by_cases hc : objectProtoKeys.contains t = true
    · have hd : detect text t = Except.error () := by
        unfold detect
        rw [hpg, if_pos hc]
      unfold detectD
      rw [hd]
    · have hd : detect text t = Except.ok [] := by
        unfold detect
        rw [hpg, if_neg hc]
      unfold detectD
      rw [hd]
  | some re =>
    have hpg : patternsGet t = some (PatternSlot.regexOf re) := by
      unfold patternsGet
      rw [hl]
    right
    refine ⟨re, rfl, ?_⟩
    have hdd : detectD text t =
        if (t == "phone") = true then filterPhoneFalsePositives (scan re text)
        else if (t == "name") = true then filterNameFalsePositives (scan re text)
        else scan re text := by
      unfold detectD detect
      rw [hpg]
      by_cases hp : (t == "phone") = true
      · simp [hp]
      · by_cases hn : (t == "name") = true <;> simp [hp, hn]
    rw [hdd]
    by_cases hp : (t == "phone") = true
    · simp only [hp, if_true, filterPhoneFalsePositives]
      exact List.filter_sublist _
    · by_cases hn : (t == "name") = true
      · simp only [hp, hn, if_false, if_true, filterNameFalsePositives]
        exact List.filter_sublist _
      · simp only [hp, hn, if_false]
        exact List.Sublist.refl _

theorem detectD_mem_scan {text : Str} {t : String} {m : PIIMatch}
    (h : m ∈ detectD text t) :
    ∃ re, List.lookup t patternList = some re ∧ m ∈ scan re text := by
  rcases detectD_cases text t with hc | ⟨re, hre, hsub⟩
  · rw [hc] at h
    exact absurd h (List.not_mem_nil _)
  · exact ⟨re, hre, hsub.mem h⟩

/-- C2: every match reported by `detect` lies inside the document, is
non-empty, and its `value` is exactly the document text at `[start, end)`. -/
theorem detect_matches_wellformed :
    ∀ (text : Str) (t : String) (m : PIIMatch), m ∈ detectD text t →
      0 ≤ m.start ∧ m.start < m.«end» ∧ m.«end» ≤ text.length ∧
        extract text m.start m.«end» = m.value := by
  intro text t m h
  obtain ⟨re, hre, hm⟩ := detectD_mem_scan h
  have hmc := lookup_pattern_minConsume hre
  unfold scan at hm
  obtain ⟨h1, h2, h3, h4⟩ := scanAux_mem hmc hm
  exact ⟨Nat.zero_le _, h2, h3, h4.symm⟩

theorem detect_matches_wellformed_witness :
    0 ≤ 5 ∧ 5 < 17 ∧ 17 ≤ ("Call 555-123-4567".toList).length ∧
      extract ("Call 555-123-4567".toList) 5 17 = ("555-123-4567".toList) :=
  detect_matches_wellformed ("Call 555-123-4567".toList) ("phone")
    ⟨("555-123-4567".toList), 5, 17⟩ (by decide)

/-- C3: within one category the retained matches are strictly increasing in
start offset and pairwise non-overlapping. -/
theorem detect_matches_ordered :
    ∀ (text : Str) (t : String),
      (detectD text t).Pairwise
        (fun a b => a.start < b.start ∧ a.«end» ≤ b.start) := by
  intro text t
  rcases detectD_cases text t with hc | ⟨re, hre, hsub⟩
  · rw [hc]
    exact List.Pairwise.nil
  · have hmc := lookup_pattern_minConsume hre
    have hpw : (scan re text).Pairwise (fun a b => a.«end» ≤ b.start) := by
      unfold scan
      exact scanAux_pairwise hmc
    have hpw2 : (scan re text).Pairwise
        (fun a b => a.start < b.start ∧ a.«end» ≤ b.start) := by
      refine List.Pairwise.imp_of_mem ?_ hpw
      intro a b ha hb hr
      have hb1 : a.start < a.«end» := by
        unfold scan at ha
        exact (scanAux_mem hmc ha).2.1
      exact ⟨by omega, hr⟩
    exact List.Pairwise.sublist hsub hpw2

theorem lookup_pattern_mem {t : String} {r : RE}
    (h : List.lookup t patternList = some r) : t ∈ catalogKeys := by
  simp only [patternList, List.lookup] at h
  repeat' split at h
  all_goals first
    | exact Option.noConfusion h
    | (rename_i hbeq
       have ht := eq_of_beq hbeq
       subst ht
       decide)

/-- C4: the summary has an entry for every catalog category, and that entry
is the length of the category's retained match list. -/
theorem summary_counts :
    ∀ (text : Str) (t : String), t ∈ catalogKeys →
      ∃ ms, List.lookup t (detectAll text) = some ms ∧
        List.lookup t (getSummary text) = some ms.length := by
  intro text t ht
  simp only [catalogKeys, patternList, List.map_cons, List.map_nil,
    List.mem_cons, List.not_mem_nil, or_false] at ht
  rcases ht with rfl | rfl | rfl | rfl | rfl | rfl <;> exact ⟨_, rfl, rfl⟩

theorem summary_counts_witness :
    ∃ ms, List.lookup ("email") (detectAll []) = some ms ∧
      List.lookup ("email") (getSummary []) = some ms.length :=
  summary_counts [] ("email") (by decide)

/-- C9 counterexample: `"toString"` is not a catalog category, yet
`detect` does not return an empty list for it — the truthiness guard sees
the inherited `Object.prototype.toString` and the call then throws a
`TypeError` (`pattern.exec` is not a function). -/
theorem detect_toString_throws :
    ("toString" ∉ catalogKeys) ∧ detect [] ("toString") = Except.error () := by
  exact ⟨by decide, rfl⟩

/-- C9 (amended): for a category name that is neither a catalog key nor an
`Object.prototype` property name, the single-category scan returns the
empty list rather than failing; on the six catalog keys `detect` always
succeeds, whatever the document. -/
theorem detect_unknown_category :
    (∀ (text : Str) (t : String), t ∉ catalogKeys → t ∉ objectProtoKeys →
      detect text t = Except.ok []) ∧
    (∀ (text : Str) (t : String), t ∈ catalogKeys →
      ∃ l, detect text t = Except.ok l) := by
  constructor
  · intro text t h1 h2
    have hl : List.lookup t patternList = none := by
      cases hlk : List.lookup t patternList with
      | none => rfl
      | some r => exact absurd (lookup_pattern_mem hlk) h1
    have hc : objectProtoKeys.contains t = false := by
      cases hct : objectProtoKeys.contains t with
      | false => rfl
      | true =>
        exact absurd (List.elem_iff.mp hct) h2
    unfold detect patternsGet
    rw [hl, hc]
    rfl
  · intro text t ht
    simp only [catalogKeys, patternList, List.map_cons, List.map_nil,
      List.mem_cons, List.not_mem_nil, or_false] at ht
    rcases ht with rfl | rfl | rfl | rfl | rfl | rfl <;> exact ⟨_, rfl⟩

theorem detect_unknown_category_witness :
    detect [] ("category_xyz") = Except.ok [] :=
  detect_unknown_category.1 [] ("category_xyz") (by decide) (by decide)

/-! ### Filter characterisations -/

theorem jsMatchDigits_none {s : Str} (h : jsMatchDigits s = none) :
    digitRuns s = [] := by
  unfold jsMatchDigits at h
  split at h
  · rename_i he
    simpa using he
  · exact Option.noConfusion h

theorem jsMatchDigits_some {s : Str} {ds : List Str}
    (h : jsMatchDigits s = some ds) : ds = digitRuns s := by
  unfold jsMatchDigits at h
  split at h
  · exact Option.noConfusion h
  · cases h
    rfl

/-- C5: the phone filter keeps a match unchanged unless its maximal digit
runs number exactly three with the first at most 12 and the second at most
31, in which case it is discarded. -/
theorem phone_filter_spec :
    (∀ ms : List PIIMatch,
      List.Sublist (filterPhoneFalsePositives ms) ms) ∧
    (∀ (ms : List PIIMatch) (m : PIIMatch),
      m ∈ filterPhoneFalsePositives ms ↔
        m ∈ ms ∧ ¬((digitRuns m.value).length = 3 ∧
          digitsToNat ((digitRuns m.value).getD 0 []) ≤ 12 ∧
          digitsToNat ((digitRuns m.value).getD 1 []) ≤ 31)) := by
  constructor
  · intro ms
    exact List.filter_sublist _
  · intro ms m
    unfold filterPhoneFalsePositives
    rw [List.mem_filter]
    refine and_congr_right fun _ => ?_
    rcases hjs : jsMatchDigits m.value with _ | ds
    · have h0 : digitRuns m.value = [] := jsMatchDigits_none hjs
      simp [h0]
    · have hds : ds = digitRuns m.value := jsMatchDigits_some hjs
      subst hds
      by_cases h3 : (digitRuns m.value).length = 3
      · by_cases h12 : digitsToNat ((digitRuns m.value).getD 0 []) ≤ 12 ∧
            digitsToNat ((digitRuns m.value).getD 1 []) ≤ 31
        · simp [h3] at h12 ⊢
          omega
        · simp [h3] at h12 ⊢
          omega
      · simp [h3]

/-- C6: the name filter discards a raw match exactly when one of its
whitespace-separated words is in the stoplist; on the scenario input
`"The meeting is in June"` no name match is retained. -/
theorem name_filter_spec :
    (∀ (ms : List PIIMatch) (m : PIIMatch),
      m ∈ filterNameFalsePositives ms ↔
        m ∈ ms ∧ ¬∃ w ∈ splitWs m.value, w ∈ commonWords) ∧
    detectD ("The meeting is in June".toList) ("name") = [] := by
  constructor
  · intro ms m
    unfold filterNameFalsePositives
    rw [List.mem_filter]
    refine and_congr_right fun _ => ?_
    simp [List.any_eq_true, List.elem_iff]
  · decide

/-- C10: every catalog pattern needs at least one character, hence the
scan loop advances past each match: every raw match is non-empty, the
number of matches never exceeds the document length, and giving the loop
any extra fuel does not change its output (it has already terminated). -/
theorem scan_terminates :
    (patternList.all (fun p => decide (1 ≤ minConsume p.2)) = true) ∧
    (∀ (doc : Str) (re : RE), 1 ≤ minConsume re →
      (∀ m ∈ scan re doc, m.start < m.«end») ∧
      (scan re doc).length ≤ doc.length ∧
      (∀ extra, scanAux re doc (doc.length + 1 + extra) 0 = scan re doc)) := by
  constructor
  · decide
  · intro doc re hmc
    refine ⟨?_, ?_, ?_⟩
    · intro m hm
      unfold scan at hm
      exact (scanAux_mem hmc hm).2.1
    · have h := @scanAux_length re hmc doc (doc.length + 1) 0
      unfold scan
      omega
    · intro extra
      unfold scan
      exact scanAux_fuel hmc (by omega) (by omega)

theorem scan_terminates_witness :
    (scan phoneRE ("Call 555-123-4567".toList)).length ≤
      ("Call 555-123-4567".toList).length :=
  ((scan_terminates.2 ("Call 555-123-4567".toList) phoneRE (by decide)).2).1

/-! ### Unique values -/

theorem mem_firstDedupAux :
    ∀ {l seen : List Str} {v : Str},
      v ∈ firstDedupAux l seen → v ∈ l ∧ v ∉ seen := by
  intro l
  induction l with
  | nil =>
    intro seen v h
    exact absurd h (List.not_mem_nil _)
  | cons x xs ih =>
    intro seen v h
    unfold firstDedupAux at h
    split at h
    · obtain ⟨h1, h2⟩ := ih h
      exact ⟨List.mem_cons_of_mem _ h1, h2⟩
    · rename_i hc
      rcases List.mem_cons.mp h with rfl | hm
      · refine ⟨List.mem_cons_self _ _, ?_⟩
        intro hmem
        exact hc (List.elem_iff.mpr hmem)
      · obtain ⟨h1, h2⟩ := ih hm
        refine ⟨List.mem_cons_of_mem _ h1, ?_⟩
        intro hmem
        exact h2 (List.mem_cons_of_mem _ hmem)

theorem count_firstDedupAux :
    ∀ {l seen : List Str} {v : Str},
      (firstDedupAux l seen).count v = if v ∈ l ∧ v ∉ seen then 1 else 0 := by
  intro l
  induction l with
  | nil =>
    intro seen v
    simp [firstDedupAux]
  | cons x xs ih =>
    intro seen v
    unfold firstDedupAux
    split
    · rename_i hc
      rw [ih]
      have hx : x ∈ seen := List.elem_iff.mp hc
      by_cases hvx : v = x
      · subst hvx
        simp [hx]
      · simp [hvx, List.mem_cons]
    · rename_i hc
      have hx : x ∉ seen := fun hmem => hc (List.elem_iff.mpr hmem)
      rw [List.count_cons, ih]
      by_cases hvx : x = v
      · subst hvx
        simp [hx, List.mem_cons]
      · have hvx2 : ¬v = x := fun he => hvx he.symm
        simp [hvx, hvx2, List.mem_cons]

theorem firstIdx_cons_ne {x v : Str} (xs : List Str) (h : ¬x = v) :
    firstIdx v (x :: xs) = firstIdx v xs + 1 := by
  simp [firstIdx, h]

theorem pairwise_firstDedupAux :
    ∀ {l seen : List Str},
      (firstDedupAux l seen).Pairwise
        (fun a b => firstIdx a l < firstIdx b l) := by
  intro l
  induction l with
  | nil =>
    intro seen
    exact List.Pairwise.nil
  | cons x xs ih =>
    intro seen
    unfold firstDedupAux
    split
    · rename_i hc
      have hx : x ∈ seen := List.elem_iff.mp hc
      refine List.Pairwise.imp_of_mem ?_ (@ih seen)
      intro a b ha hb hr
      have hax : ¬x = a := fun he => (mem_firstDedupAux ha).2 (he ▸ hx)
      have hbx : ¬x = b := fun he => (mem_firstDedupAux hb).2 (he ▸ hx)
      rw [firstIdx_cons_ne xs hax, firstIdx_cons_ne xs hbx]
      omega
    · rename_i hc
      refine List.Pairwise.cons ?_ ?_
      · intro b hb
        have hbm := mem_firstDedupAux hb
        have hbx : ¬x = b := fun he => hbm.2 (he ▸ List.mem_cons_self _ _)
        rw [firstIdx_cons_ne xs hbx]
        have hxx : firstIdx x (x :: xs) = 0 := by simp [firstIdx]
        omega
      · refine List.Pairwise.imp_of_mem ?_ (@ih (x :: seen))
        intro a b ha hb hr
        have hax : ¬x = a :=
          fun he => (mem_firstDedupAux ha).2 (he ▸ List.mem_cons_self _ _)
        have hbx : ¬x = b :=
          fun he => (mem_firstDedupAux hb).2 (he ▸ List.mem_cons_self _ _)
        rw [firstIdx_cons_ne xs hax, firstIdx_cons_ne xs hbx]
        omega

theorem lookup_getUniqueValues (text : Str) (t : String) :
    List.lookup t (getUniqueValues text) =
      (List.lookup t (detectAll text)).map
        (fun l => firstDedup (l.map PIIMatch.value)) := by
  unfold getUniqueValues
  generalize detectAll text = l
  induction l with
  | nil => rfl
  | cons p es ih =>
    rcases p with ⟨k, v⟩
    simp only [List.map_cons, List.lookup]
    split
    · rfl
    · exact ih

/-- C7: each category's unique-values list holds every distinct retained
value exactly once (dedup key: exact string equality, so positionally
distinct matches with equal text collapse), ordered by first occurrence in
the match list. -/
theorem unique_values_spec :
    ∀ (text : Str) (t : String) (ms : List PIIMatch) (us : List Str),
      List.lookup t (detectAll text) = some ms →
      List.lookup t (getUniqueValues text) = some us →
      (∀ v, us.count v = if v ∈ ms.map PIIMatch.value then 1 else 0) ∧
      us.Pairwise (fun a b =>
        firstIdx a (ms.map PIIMatch.value) < firstIdx b (ms.map PIIMatch.value)) := by
  intro text t ms us h1 h2
  rw [lookup_getUniqueValues, h1] at h2
  have h3 : some (firstDedup (ms.map PIIMatch.value)) = some us := h2
  have hus : us = firstDedup (ms.map PIIMatch.value) := by
    cases h3
    rfl
  subst hus
  constructor
  · intro v
    have hcnt := @count_firstDedupAux (ms.map PIIMatch.value) [] v
    unfold firstDedup
    rw [hcnt]
    simp
  · have hpw := @pairwise_firstDedupAux (ms.map PIIMatch.value) []
    unfold firstDedup
    exact hpw

theorem unique_values_spec_witness :
    (firstDedup (((detectD ("123-45-6789 123-45-6789".toList) ("ssn"))).map
        PIIMatch.value)).count ("123-45-6789".toList) =
      if ("123-45-6789".toList) ∈
          ((detectD ("123-45-6789 123-45-6789".toList) ("ssn"))).map
            PIIMatch.value
        then 1 else 0 :=
  (unique_values_spec ("123-45-6789 123-45-6789".toList) ("ssn") _ _ rfl rfl).1
    ("123-45-6789".toList)

/-! ### Redaction -/

theorem insertDesc_perm (x : PIIMatch × String) :
    ∀ l, (insertDesc x l).Perm (x :: l)
  | [] => List.Perm.refl _
  | y :: ys => by
    unfold insertDesc
    split
    · exact List.Perm.refl _
    · exact (List.Perm.cons y (insertDesc_perm x ys)).trans
        (List.Perm.swap x y ys)

theorem foldl_insertDesc_perm :
    ∀ (l acc : List (PIIMatch × String)),
      (l.foldl (fun a x => insertDesc x a) acc).Perm (acc ++ l) := by
  intro l
  induction l with
  | nil =>
    intro acc
    simp
  | cons x xs ih =>
    intro acc
    simp only [List.foldl_cons]
    refine (ih (insertDesc x acc)).trans ?_
    refine (List.Perm.append_right xs (insertDesc_perm x acc)).trans ?_
    exact List.perm_middle.symm

theorem sortDesc_perm (l : List (PIIMatch × String)) : (sortDesc l).Perm l := by
  unfold sortDesc
  simpa using foldl_insertDesc_perm l []

theorem mem_insertDesc {x z : PIIMatch × String} :
    ∀ {l}, z ∈ insertDesc x l → z = x ∨ z ∈ l := by
  intro l
  induction l with
  | nil =>
    intro h
    rcases List.mem_cons.mp h with rfl | h2
    · exact Or.inl rfl
    · exact Or.inr h2
  | cons y ys ih =>
    intro h
    unfold insertDesc at h
    split at h
    · rcases List.mem_cons.mp h with rfl | h2
      · exact Or.inl rfl
      · exact Or.inr h2
    · rcases List.mem_cons.mp h with rfl | h2
      · exact Or.inr (List.mem_cons_self _ _)
      · rcases ih h2 with rfl | h3
        · exact Or.inl rfl
        · exact Or.inr (List.mem_cons_of_mem _ h3)

theorem insertDesc_sorted {x : PIIMatch × String} :
    ∀ {l}, l.Pairwise (fun a b => b.1.start ≤ a.1.start) →
      (insertDesc x l).Pairwise (fun a b => b.1.start ≤ a.1.start) := by
  intro l
  induction l with
  | nil =>
    intro _
    exact List.Pairwise.cons (fun z hz => absurd hz (List.not_mem_nil _))
      List.Pairwise.nil
  | cons y ys ih =>
    intro h
    have hp := List.pairwise_cons.mp h
    unfold insertDesc
    split
    · rename_i hlt
      refine List.Pairwise.cons ?_ h
      intro z hz
      rcases List.mem_cons.mp hz with rfl | hz2
      · omega
      · have := hp.1 z hz2
        omega
    · rename_i hge
      refine List.Pairwise.cons ?_ (ih hp.2)
      intro z hz
      rcases mem_insertDesc hz with rfl | hz2
      · omega
      · exact hp.1 z hz2

theorem foldl_insertDesc_sorted :
    ∀ (l acc : List (PIIMatch × String)),
      acc.Pairwise (fun a b => b.1.start ≤ a.1.start) →
      (l.foldl (fun a x => insertDesc x a) acc).Pairwise
        (fun a b => b.1.start ≤ a.1.start) := by
  intro l
  induction l with
  | nil =>
    intro acc h
    exact h
  | cons x xs ih =>
    intro acc h
    simp only [List.foldl_cons]
    exact ih _ (insertDesc_sorted h)

theorem sortDesc_sorted (l : List (PIIMatch × String)) :
    (sortDesc l).Pairwise (fun a b => b.1.start ≤ a.1.start) :=
  foldl_insertDesc_sorted l [] List.Pairwise.nil

/-- C1: `anonymize` equals the Contract 4 procedure: collect the retained
matches of every category (raw post-filter lists, duplicates included),
stably sort them by descending start offset — the sorted list is a
permutation of the collected list and is ordered by non-increasing start —
then fold over that list from the original document, each step replacing
`[start, end)` of the current string by the bracketed uppercase label. -/
theorem anonymize_contract4 :
    ∀ text : Str,
      anonymize text =
        (sortDesc (collectMatches (detectAll text))).foldl
          (fun acc mt =>
            replaceSpan acc mt.1.start mt.1.«end» (placeholderFor mt.2))
          text ∧
      (sortDesc (collectMatches (detectAll text))).Perm
        (collectMatches (detectAll text)) ∧
      (sortDesc (collectMatches (detectAll text))).Pairwise
        (fun a b => b.1.start ≤ a.1.start) := by
  intro text
  exact ⟨rfl, sortDesc_perm _, sortDesc_sorted _⟩

theorem collectMatches_nil :
    ∀ {rs : List (String × List PIIMatch)},
      (∀ p ∈ rs, p.2 = ([] : List PIIMatch)) → collectMatches rs = [] := by
  intro rs
  induction rs with
  | nil =>
    intro _
    rfl
  | cons p ps ih =>
    intro h
    unfold collectMatches
    simp only [List.foldr_cons]
    rw [h p (List.mem_cons_self _ _)]
    simp only [List.map_nil, List.nil_append]
    exact ih (fun q hq => h q (List.mem_cons_of_mem _ hq))

theorem anonymize_noop {text : Str}
    (h : ∀ p ∈ detectAll text, p.2 = []) : anonymize text = text := by
  show (sortDesc (collectMatches (detectAll text))).foldl
    (fun acc mt =>
      replaceSpan acc mt.1.start mt.1.«end» (placeholderFor mt.2)) text = text
  rw [collectMatches_nil h]
  rfl

/-- C8: the placeholder strings themselves contain no match of any
category, and redaction is idempotent on documents whose first redaction
leaves no retained match: a second `anonymize` is a no-op. -/
theorem anonymize_idempotent :
    (placeholderStrings.all
      (fun P => (detectAll P).all (fun p => p.2.isEmpty)) = true) ∧
    (∀ text : Str, (∀ p ∈ detectAll (anonymize text), p.2 = []) →
      anonymize (anonymize text) = anonymize text) := by
  constructor
  · decide
  · intro text h
    exact anonymize_noop h

theorem anonymize_idempotent_witness :
    anonymize (anonymize []) = anonymize [] :=
  anonymize_idempotent.2 [] (by decide)
